import Mathlib

/-!
Verification of the streaming server-side markup serializer
(`ReactServerAsyncRendering`) and the `isReadableStream` duck-type check.

`isReadableStream` is embedded from `src/renderers/shared/reconciler/isReadableStream.js`.
The serializer core itself is not present in the repository sources (only its
test suite is), so it is modelled from the specification: every definition in
the `Serializer` part whose doc comment starts with `Modelled from the spec:`
follows the spec's words for the missing module.

Strings of the modelled JavaScript are embedded as lists of characters.
-/

/-- JavaScript strings are embedded as lists of characters. -/
abbrev Str : Type := List Char

/-- Embed a Lean string literal as a model string. -/
def str (s : String) : Str := s.data

/-- Modelled from the spec: the input tree (§3 Data Model).  `text` is a text
node, `host` a host element with tag, attributes and ordered children,
`hostRaw` a host element whose children are overridden by the raw-HTML
channel (`dangerouslySetInnerHTML`, §6) holding pre-escaped chunks,
`composite` a node that resolves to another node, and `source` an external
pull-based source embedded as the sequence of chunks it yields. -/
inductive Node where
  | text (s : Str)
  | host (tag : Str) (attrs : List (Str × Str)) (children : List Node)
  | hostRaw (tag : Str) (attrs : List (Str × Str)) (rawChunks : List Str)
  | composite (resolved : Node)
  | source (chunks : List Str)

/-- Output chunks produced by the tree walker; `chunkRender` turns each into
markup text.  `text` chunks are escaped on rendering, `raw` chunks are
forwarded verbatim. -/
inductive Chunk where
  | text (s : Str)
  | raw (s : Str)
  | openTag (tag : Str) (attrs : List (Str × Str)) (selfClose : Bool)
  | closeTag (tag : Str)
deriving DecidableEq

/-- Modelled from the spec: per-character markup escaping (§4.2); `&`, `<`,
`>` and the two quote characters become entities, all other characters are
kept. -/
def escapeChar (c : Char) : Str :=
  if c = '&' then str "&amp;"
  else if c = '<' then str "&lt;"
  else if c = '>' then str "&gt;"
  else if c = '"' then str "&quot;"
  else if c = '\'' then str "&#x27;"
  else [c]

/-- Modelled from the spec: the markup escaper applied to a whole string. -/
def escapeMarkup : Str → Str
  | [] => []
  | c :: rest => escapeChar c ++ escapeMarkup rest

/-- True when a string begins with the tail of one of the five escape
entities (what must follow a `&`). -/
def ampEntityAt : Str → Bool
  | 'a' :: 'm' :: 'p' :: ';' :: _ => true
  | 'l' :: 't' :: ';' :: _ => true
  | 'g' :: 't' :: ';' :: _ => true
  | 'q' :: 'u' :: 'o' :: 't' :: ';' :: _ => true
  | '#' :: 'x' :: '2' :: '7' :: ';' :: _ => true
  | _ => false

/-- Scanner deciding that a string contains `&`, `<`, `>`, `"` and `'` only
as part of the five escape entities: every `&` must begin an entity and the
other four special characters may not occur at all. -/
def escapedOk : Str → Bool
  | [] => true
  | c :: rest =>
      if c = '<' || c = '>' || c = '"' || c = '\'' then false
      else if c = '&' then ampEntityAt rest && escapedOk rest
      else escapedOk rest

/-- Modelled from the spec: the void/self-closing tag set of the tag rule
table (§4.1). -/
def voidTags : List Str :=
  [str "area", str "base", str "br", str "col", str "embed", str "hr",
   str "img", str "input", str "keygen", str "link", str "meta",
   str "param", str "source", str "track", str "wbr"]

/-- Modelled from the spec: membership in the void/self-closing tag set. -/
def voidTag (tag : Str) : Bool := voidTags.contains tag

/-- Modelled from the spec: the newline-eating tag set of the tag rule table
(§4.1), the preformatted-text tags. -/
def newlineEatingTags : List Str := [str "listing", str "pre", str "textarea"]

/-- Modelled from the spec: membership in the newline-eating tag set. -/
def newlineEating (tag : Str) : Bool := newlineEatingTags.contains tag

/-- Output mode (§4.6): static emission or identity/checksum annotation. -/
inductive Mode where
  | staticMode
  | identityMode
deriving DecidableEq

/-- The identity attribute name injected in identity mode. -/
def ID_ATTRIBUTE_NAME : Str := str "data-reactid"

/-- The checksum attribute name patched onto the root in identity mode. -/
def CHECKSUM_ATTR_NAME : Str := str "data-react-checksum"

/-- Decimal rendering of the identity counter. -/
def natToStr (n : Nat) : Str := (Nat.repr n).data

/-- Modelled from the spec: the identity annotator (§4.6).  In static mode
attributes pass through and the counter is unchanged; in identity mode the
identity attribute is appended and the per-invocation counter advances. -/
def annotate (m : Mode) (attrs : List (Str × Str)) (k : Nat) :
    List (Str × Str) × Nat :=
  match m with
  | .staticMode => (attrs, k)
  | .identityMode => (attrs ++ [(ID_ATTRIBUTE_NAME, natToStr k)], k + 1)

/-- True when every chunk of an external source is empty. -/
def allEmptyChunks : List Str → Bool
  | [] => true
  | c :: cs => c.isEmpty && allEmptyChunks cs

/-- Modelled from the spec: a child list consists solely of external sources
that end before producing any bytes (§4.5 special case); the empty child list
qualifies. -/
def emptySourceChildren : List Node → Bool
  | [] => true
  | .source cs :: rest => allEmptyChunks cs && emptySourceChildren rest
  | _ => false

/-- First character of the first non-empty chunk of an external source. -/
def firstChunkChar : List Str → Option Char
  | [] => none
  | [] :: rest => firstChunkChar rest
  | (c :: _) :: _ => some c

mutual
/-- Modelled from the spec: the first character of content a node
contributes, used for the newline-eating fixup (§4.1/§4.4); host elements
always begin with `<`. -/
def firstCharNode : Node → Option Char
  | .text s => s.head?
  | .host _ _ _ => some '<'
  | .hostRaw _ _ _ => some '<'
  | .composite r => firstCharNode r
  | .source cs => firstChunkChar cs
/-- First content character contributed by a child list. -/
def firstCharList : List Node → Option Char
  | [] => none
  | n :: rest =>
      match firstCharNode n with
      | some c => some c
      | none => firstCharList rest
end

/-- Modelled from the spec: the newline-eating fixup (§4.1): when the tag is
newline-eating and the first content character is a newline, one synthetic
leading newline chunk is emitted. -/
def nlFix (tag : Str) (children : List Node) : List Chunk :=
  if newlineEating tag && (firstCharList children == some '\n') then
    [Chunk.text (str "\n")]
  else []

mutual
/-- Modelled from the spec: the reference serialization of one node (§4.4),
threading the identity counter.  Text nodes become one text chunk, external
sources one text chunk per pulled chunk, the raw-HTML channel forwards its
chunks as raw chunks, composites resolve, and host elements emit an opening
tag (self-closing when the tag is void-eligible and the children are
empty external sources), the newline fixup, the children in order, and a
closing tag. -/
def renderNodeM (m : Mode) : Node → Nat → List Chunk × Nat
  | .text s, k => ([Chunk.text s], k)
  | .source cs, k => (cs.map Chunk.text, k)
  | .hostRaw tag attrs cs, k =>
      let ak := annotate m attrs k
      (Chunk.openTag tag ak.1 false :: (cs.map Chunk.raw ++ [Chunk.closeTag tag]), ak.2)
  | .composite r, k => renderNodeM m r k
  | .host tag attrs children, k =>
      let ak := annotate m attrs k
      if voidTag tag && emptySourceChildren children then
        ([Chunk.openTag tag ak.1 true], ak.2)
      else
        let ck := renderListM m children ak.2
        (Chunk.openTag tag ak.1 false ::
          (nlFix tag children ++ ck.1 ++ [Chunk.closeTag tag]), ck.2)
/-- Reference serialization of a sibling list in order. -/
def renderListM (m : Mode) : List Node → Nat → List Chunk × Nat
  | [], k => ([], k)
  | n :: ns, k =>
      let p := renderNodeM m n k
      let q := renderListM m ns p.2
      (p.1 ++ q.1, q.2)
end

/-- Worklist entries of the iterative tree walker (§3 Render Frame): a node
still to expand, or a pending closing tag. -/
inductive Frame where
  | fNode (n : Node)
  | fClose (tag : Str)

mutual
/-- Steps the walker charges for one node: host elements pay for their own
expansion, their closing frame and their children. -/
def nodeCost : Node → Nat
  | .text _ => 1
  | .source _ => 1
  | .hostRaw _ _ _ => 1
  | .composite r => nodeCost r + 1
  | .host _ _ children => 2 + listCost children
/-- Steps the walker charges for a sibling list. -/
def listCost : List Node → Nat
  | [] => 0
  | n :: ns => nodeCost n + listCost ns
end

/-- Steps the walker charges for a worklist. -/
def framesCost : List Frame → Nat
  | [] => 0
  | .fNode n :: r => nodeCost n + framesCost r
  | .fClose _ :: r => 1 + framesCost r

/-- Modelled from the spec: the iterative tree walker (§4.4).  One explicit
worklist of frames is processed step by step; expanding a host element pushes
its child frames and a closing frame instead of recursing, so sibling count
never nests calls.  Fuel counts worklist steps; `none` means the fuel ran
out. -/
def walk (m : Mode) : Nat → List Frame → Nat → Option (List Chunk × Nat)
  | _, [], k => some ([], k)
  | 0, _ :: _, _ => none
  | fuel + 1, f :: rest, k =>
      match f with
      | .fClose tag =>
          match walk m fuel rest k with
          | none => none
          | some p => some (Chunk.closeTag tag :: p.1, p.2)
      | .fNode (.text s) =>
          match walk m fuel rest k with
          | none => none
          | some p => some (Chunk.text s :: p.1, p.2)
      | .fNode (.source cs) =>
          match walk m fuel rest k with
          | none => none
          | some p => some (cs.map Chunk.text ++ p.1, p.2)
      | .fNode (.hostRaw tag attrs cs) =>
          let ak := annotate m attrs k
          match walk m fuel rest ak.2 with
          | none => none
          | some p =>
              some (Chunk.openTag tag ak.1 false ::
                (cs.map Chunk.raw ++ (Chunk.closeTag tag :: p.1)), p.2)
      | .fNode (.composite r) => walk m fuel (.fNode r :: rest) k
      | .fNode (.host tag attrs children) =>
          let ak := annotate m attrs k
          if voidTag tag && emptySourceChildren children then
            match walk m fuel rest ak.2 with
            | none => none
            | some p => some (Chunk.openTag tag ak.1 true :: p.1, p.2)
          else
            match walk m fuel (children.map Frame.fNode ++ Frame.fClose tag :: rest) ak.2 with
            | none => none
            | some p =>
                some (Chunk.openTag tag ak.1 false :: (nlFix tag children ++ p.1), p.2)

/-- Reference meaning of a whole worklist: each frame in order, threading the
counter. -/
def refFrames (m : Mode) : List Frame → Nat → List Chunk × Nat
  | [], k => ([], k)
  | .fClose tag :: r, k =>
      let p := refFrames m r k
      (Chunk.closeTag tag :: p.1, p.2)
  | .fNode n :: r, k =>
      let q := renderNodeM m n k
      let p := refFrames m r q.2
      (q.1 ++ p.1, p.2)

/-- Attribute rendering: a space, the name, `="`, the escaped value, `"`. -/
def attrText (a : Str × Str) : Str :=
  str " " ++ a.1 ++ str "=\x22" ++ escapeMarkup a.2 ++ str "\x22"

/-- Rendering of an attribute list. -/
def attrsText : List (Str × Str) → Str
  | [] => []
  | a :: rest => attrText a ++ attrsText rest

/-- Markup text of one chunk: text chunks are escaped, raw chunks are
forwarded verbatim, tags are rendered with escaped attribute values. -/
def chunkRender : Chunk → Str
  | .text s => escapeMarkup s
  | .raw s => s
  | .openTag tag attrs selfClose =>
      str "<" ++ tag ++ attrsText attrs ++ (if selfClose then str "/>" else str ">")
  | .closeTag tag => str "</" ++ tag ++ str ">"

/-- Markup text of a chunk sequence. -/
def chunksText : List Chunk → Str
  | [] => []
  | c :: cs => chunkRender c ++ chunksText cs

/-- Run the walker on one root node with exactly the charged fuel. -/
def runRender (m : Mode) (t : Node) : List Chunk :=
  match walk m (framesCost [Frame.fNode t]) [Frame.fNode t] 0 with
  | some p => p.1
  | none => []

/-- Possible root arguments of the public operations: a valid element, or
one of the invalid raw values the caller might pass instead. -/
inductive JSArg where
  | element (t : Node)
  | strArg (s : Str)
  | numArg (n : Int)
  | boolArg (b : Bool)
  | nullArg

/-- Modelled from the spec: the error taxonomy entry for an invalid root
argument (§7). -/
inductive RenderError where
  | invalidRoot
deriving DecidableEq

/-- Modelled from the spec: the whole-markup checksum of identity mode, a
deterministic function of the final markup (§4.6). -/
def checksum (s : Str) : Nat :=
  s.foldl (fun a c => (a * 31 + c.toNat) % 65521) 1

/-- Patch the checksum attribute into the root's opening tag (§4.6). -/
def patchChecksum (ck : Nat) : List Chunk → List Chunk
  | Chunk.openTag tag attrs sc :: rest =>
      Chunk.openTag tag (attrs ++ [(CHECKSUM_ATTR_NAME, natToStr ck)]) sc :: rest
  | cs => cs

/-- Modelled from the spec: `renderToStaticMarkupStream` (§6,
`renderStaticStream`): fails synchronously with `InvalidRootError` unless the
root is a valid node, otherwise yields the static-mode chunk stream. -/
def renderToStaticMarkupStream : JSArg → Except RenderError (List Chunk)
  | .element t => .ok (runRender .staticMode t)
  | _ => .error .invalidRoot

/-- Modelled from the spec: `renderToStringStream` (§6,
`renderIdentityStream`): fails synchronously with `InvalidRootError` unless
the root is a valid node, otherwise yields the identity-mode chunk stream
with the checksum patched into the root's opening tag. -/
def renderToStringStream : JSArg → Except RenderError (List Chunk)
  | .element t =>
      let cs := runRender .identityMode t
      .ok (patchChecksum (checksum (chunksText cs)) cs)
  | _ => .error .invalidRoot

/-- Static-mode output chunks of a tree. -/
def staticChunks (t : Node) : List Chunk := runRender .staticMode t

/-- Static-mode output markup of a tree. -/
def staticStr (t : Node) : Str := chunksText (staticChunks t)

/-- Number of newline characters in a model string. -/
def nlCount (s : Str) : Nat := s.count '\n'

/-- Newlines contained in the chunks of one external source. -/
def chunkListNL : List Str → Nat
  | [] => 0
  | c :: cs => nlCount c + chunkListNL cs

/-- Newlines of the direct text/external-source content of a child list. -/
def contentNewlines : List Node → Nat
  | [] => 0
  | .text s :: rest => nlCount s + contentNewlines rest
  | .source cs :: rest => chunkListNL cs + contentNewlines rest
  | _ :: rest => contentNewlines rest

/-- A node that is direct text or external-source content. -/
def leafNode : Node → Bool
  | .text _ => true
  | .source _ => true
  | _ => false

/-- A child list consisting only of text/external-source content. -/
def leafChildren : List Node → Bool
  | [] => true
  | n :: ns => leafNode n && leafChildren ns

/-- Attribute names and values free of newline characters. -/
def nlFreeAttrs : List (Str × Str) → Bool
  | [] => true
  | a :: rest => (nlCount a.1 == 0) && (nlCount a.2 == 0) && nlFreeAttrs rest

/-- Tag name and attributes free of newline characters, so that the opening
and closing tags contribute no newlines of their own. -/
def nlFreeOpen (tag : Str) (attrs : List (Str × Str)) : Bool :=
  (nlCount tag == 0) && nlFreeAttrs attrs

/-- Attribute list that does not use the reserved identity/checksum
attribute names. -/
def cleanAttrs : List (Str × Str) → Bool
  | [] => true
  | a :: rest =>
      !(a.1 == ID_ATTRIBUTE_NAME) && !(a.1 == CHECKSUM_ATTR_NAME) && cleanAttrs rest

mutual
/-- A tree whose own attribute lists never use the reserved
identity/checksum attribute names. -/
def cleanNode : Node → Bool
  | .text _ => true
  | .source _ => true
  | .hostRaw _ attrs _ => cleanAttrs attrs
  | .composite r => cleanNode r
  | .host _ attrs children => cleanAttrs attrs && cleanList children
/-- `cleanNode` over a child list. -/
def cleanList : List Node → Bool
  | [] => true
  | n :: ns => cleanNode n && cleanList ns
end

/-- The attributes carried by a chunk: only opening tags carry any. -/
def chunkAttrs : Chunk → List (Str × Str)
  | .openTag _ attrs _ => attrs
  | _ => []

/-- The markup text of the static-mode serialization of a child list,
starting from counter `0`. -/
def contentStr (children : List Node) : Str :=
  chunksText (renderListM Mode.staticMode children 0).1

/-- One leaf of the 100,000-sibling stress tree. -/
def leafDiv : Node := Node.host (str "div") [] [Node.text (str "abcdefghij")]

/-- The stress tree: `n` sibling leaf host elements under one parent. -/
def wideTree (n : Nat) : Node :=
  Node.host (str "div") [] (List.replicate n leafDiv)

/-- `n`-fold repetition of a model string. -/
def repeatStr : Nat → Str → Str
  | 0, _ => []
  | n + 1, s => s ++ repeatStr n s

/-- A nested composite tree: composites around host elements, as in the
static-markup checksum/identity tests. -/
def nestedDemo : Node :=
  Node.composite (Node.host (str "span") [(str "class", str "x")]
    [Node.composite (Node.host (str "div") [] [Node.text (str "inner text")])])

/-- The lifecycle hooks of a stateful component definition (§3). -/
inductive Hook where
  | getInitialState
  | componentWillMount
  | render
  | componentDidMount
  | shouldComponentUpdate
  | componentWillReceiveProps
  | componentWillUpdate
  | componentDidUpdate
  | componentWillUnmount
deriving DecidableEq, BEq

/-- The update-phase hooks the core must never invoke. -/
def updateHooks : List Hook :=
  [Hook.componentDidMount, Hook.shouldComponentUpdate,
   Hook.componentWillReceiveProps, Hook.componentWillUpdate,
   Hook.componentDidUpdate, Hook.componentWillUnmount]

/-- Modelled from the spec: a stateful component definition (§3/§4.3) over a
state type `σ`.  State is `Option σ` because a component without
`getInitialState` renders with no state.  `componentWillMount` may mutate the
state synchronously; the update-phase hooks are present in the definition but
the lifecycle invoker never touches them. -/
structure StatefulDef (σ : Type) where
  getInitialState : Option (Unit → σ)
  componentWillMount : Option (Option σ → Option σ)
  render : Option σ → Node
  componentDidMount : Option (Option σ → Option σ) := none
  shouldComponentUpdate : Option (Option σ → Bool) := none
  componentWillReceiveProps : Option (Option σ → Option σ) := none
  componentWillUpdate : Option (Option σ → Option σ) := none
  componentDidUpdate : Option (Option σ → Option σ) := none
  componentWillUnmount : Option (Option σ → Option σ) := none

/-- Modelled from the spec: seeding the state from `getInitialState` when
present (§4.3), together with the hook-invocation trace of that step. -/
def initialState {σ : Type} (c : StatefulDef σ) : Option σ × List Hook :=
  match c.getInitialState with
  | some f => (some (f ()), [Hook.getInitialState])
  | none => (none, [])

/-- Modelled from the spec: the state visible to `render`, after the
synchronous `componentWillMount` mutation when that hook is present (§4.3). -/
def mountedState {σ : Type} (c : StatefulDef σ) : Option σ :=
  match c.componentWillMount with
  | some f => f (initialState c).1
  | none => (initialState c).1

/-- Modelled from the spec: the lifecycle invoker for a stateful definition
(§4.3): seed state via `getInitialState` if present, run
`componentWillMount` if present — its mutation stays visible — then call
`render` on the resulting state.  Returns the rendered node and the trace of
invoked hooks. -/
def resolveStateful {σ : Type} (c : StatefulDef σ) : Node × List Hook :=
  let i := initialState c
  let w :=
    match c.componentWillMount with
    | some f => (f i.1, i.2 ++ [Hook.componentWillMount])
    | none => (i.1, i.2)
  (c.render w.1, w.2 ++ [Hook.render])

/-- The component of the `allows setState in componentWillMount` test:
`componentWillMount` replaces the state with `hello, world` and `render`
shows the state text. -/
def setStateDemo : StatefulDef Str :=
  { getInitialState := none
  , componentWillMount := some (fun _ => some (str "hello, world"))
  , render := fun s => Node.text (s.getD []) }

/-- The component of the lifecycle-order test: every hook is defined and the
initialization hooks produce and render the component name. -/
def lifecycleDemo : StatefulDef Str :=
  { getInitialState := some (fun _ => str "TestComponent")
  , componentWillMount := some (fun s => s)
  , render := fun s => Node.text (s.getD [])
  , componentDidMount := some (fun s => s)
  , shouldComponentUpdate := some (fun _ => true)
  , componentWillReceiveProps := some (fun s => s)
  , componentWillUpdate := some (fun s => s)
  , componentDidUpdate := some (fun s => s)
  , componentWillUnmount := some (fun s => s) }

/-- JavaScript values, embedded for the duck-type check of
`isReadableStream.js`: the primitives, functions (identified by a tag), and
objects as property lists. -/
inductive JSValue where
  | vUndefined
  | vNull
  | vBool (b : Bool)
  | vNumber (n : Int)
  | vString (s : String)
  | vFunction (tag : Nat)
  | vObject (props : List (String × JSValue))

/-- `typeof` on an embedded JavaScript value. -/
def typeof : JSValue → String
  | .vUndefined => "undefined"
  | .vNull => "object"
  | .vBool _ => "boolean"
  | .vNumber _ => "number"
  | .vString _ => "string"
  | .vFunction _ => "function"
  | .vObject _ => "object"

/-- Property access `input.name`: on `null` and `undefined` it throws
(`none`); on an object it reads the property list, missing properties being
`undefined`; the remaining primitives have none of the stream methods, so
the access yields `undefined`. -/
def propAccess : JSValue → String → Option JSValue
  | .vUndefined, _ => none
  | .vNull, _ => none
  | .vObject props, name => some ((props.lookup name).getD JSValue.vUndefined)
  | _, _ => some JSValue.vUndefined

/-- One conjunct of `isReadableStream`: `typeof input.name === "function"`,
propagating the throw of the property access. -/
def isFunctionProp (input : JSValue) (name : String) : Option Bool :=
  (propAccess input name).map (fun v => typeof v == "function")

/-- The nine method names `isReadableStream` checks, in source order. -/
def streamMethods : List String :=
  ["isPaused", "pause", "pipe", "read", "resume",
   "setEncoding", "unpipe", "unshift", "wrap"]

/-- Duck-type check from `src/renderers/shared/reconciler/isReadableStream.js`:
the conjunction of `typeof input.m === "function"` over the nine Readable
methods; `none` models the thrown `TypeError`. -/
def isReadableStream (input : JSValue) : Option Bool := do
  let a1 ← isFunctionProp input "isPaused"
  let a2 ← isFunctionProp input "pause"
  let a3 ← isFunctionProp input "pipe"
  let a4 ← isFunctionProp input "read"
  let a5 ← isFunctionProp input "resume"
  let a6 ← isFunctionProp input "setEncoding"
  let a7 ← isFunctionProp input "unpipe"
  let a8 ← isFunctionProp input "unshift"
  let a9 ← isFunctionProp input "wrap"
  pure (a1 && a2 && a3 && a4 && a5 && a6 && a7 && a8 && a9)

/-- An object defining all nine stream methods. -/
def readableDemo : JSValue :=
  JSValue.vObject
    [("isPaused", JSValue.vFunction 0), ("pause", JSValue.vFunction 1),
     ("pipe", JSValue.vFunction 2), ("read", JSValue.vFunction 3),
     ("resume", JSValue.vFunction 4), ("setEncoding", JSValue.vFunction 5),
     ("unpipe", JSValue.vFunction 6), ("unshift", JSValue.vFunction 7),
     ("wrap", JSValue.vFunction 8)]

/-- An object lacking one of the nine methods (`wrap`). -/
def almostReadableDemo : JSValue :=
  JSValue.vObject
    [("isPaused", JSValue.vFunction 0), ("pause", JSValue.vFunction 1),
     ("pipe", JSValue.vFunction 2), ("read", JSValue.vFunction 3),
     ("resume", JSValue.vFunction 4), ("setEncoding", JSValue.vFunction 5),
     ("unpipe", JSValue.vFunction 6), ("unshift", JSValue.vFunction 7)]


theorem nodeCost_pos (n : Node) : 1 ≤ nodeCost n := by
  cases n <;> (simp only [nodeCost]; omega)

theorem framesCost_append (a b : List Frame) :
    framesCost (a ++ b) = framesCost a + framesCost b := by
  induction a with
  | nil => simp [framesCost]
  | cons f r ih => cases f <;> simp [framesCost, ih, Nat.add_assoc]

theorem framesCost_map_fNode (ns : List Node) :
    framesCost (ns.map Frame.fNode) = listCost ns := by
  induction ns with
  | nil => simp [framesCost, listCost]
  | cons n r ih => simp [framesCost, listCost, ih]

theorem refFrames_nodes (m : Mode) (ns : List Node) :
    ∀ (rs : List Frame) (k : Nat),
      refFrames m (ns.map Frame.fNode ++ rs) k =
        ((renderListM m ns k).1 ++ (refFrames m rs (renderListM m ns k).2).1,
         (refFrames m rs (renderListM m ns k).2).2) := by
  induction ns with
  | nil => intro rs k; simp [renderListM, refFrames]
  | cons n r ih =>
      intro rs k
      simp [refFrames, renderListM, ih]

/-- The worklist walker, given enough fuel, computes exactly the reference
serialization of its worklist. -/
theorem walk_eq (m : Mode) :
    ∀ (fuel : Nat) (frames : List Frame) (k : Nat),
      framesCost frames ≤ fuel →
      walk m fuel frames k = some (refFrames m frames k) := by
  intro fuel
  induction fuel with
  | zero =>
      intro frames k h
      match frames with
      | [] => simp [walk, refFrames]
      | .fClose tag :: r => simp [framesCost] at h
      | .fNode n :: r =>
          exfalso
          have h1 := nodeCost_pos n
          simp [framesCost] at h
          omega
  | succ fuel ih =>
      intro frames k h
      match frames with
      | [] => simp [walk, refFrames]
      | .fClose tag :: r =>
          have hr : framesCost r ≤ fuel := by simp [framesCost] at h; omega
          simp [walk, refFrames, ih r k hr]
      | .fNode (.text s) :: r =>
          have hr : framesCost r ≤ fuel := by
            simp [framesCost, nodeCost] at h; omega
          simp [walk, refFrames, renderNodeM, ih r k hr]
      | .fNode (.source cs) :: r =>
          have hr : framesCost r ≤ fuel := by
            simp [framesCost, nodeCost] at h; omega
          simp [walk, refFrames, renderNodeM, ih r k hr]
      | .fNode (.hostRaw tag attrs cs) :: r =>
          have hr : framesCost r ≤ fuel := by
            simp [framesCost, nodeCost] at h; omega
          simp [walk, refFrames, renderNodeM, ih r _ hr]
      | .fNode (.composite nd) :: r =>
          have hr : framesCost (Frame.fNode nd :: r) ≤ fuel := by
            simp [framesCost, nodeCost] at h ⊢; omega
          have hw : walk m (fuel + 1) (Frame.fNode (Node.composite nd) :: r) k
              = walk m fuel (Frame.fNode nd :: r) k := by simp [walk]
          rw [hw, ih _ _ hr]
          simp [refFrames, renderNodeM]
      | .fNode (.host tag attrs children) :: r =>
          by_cases hb : (voidTag tag && emptySourceChildren children) = true
          · have hr : framesCost r ≤ fuel := by
              simp [framesCost, nodeCost] at h; omega
            simp [walk, refFrames, renderNodeM, hb, ih r _ hr]
          · have hr : framesCost (children.map Frame.fNode ++ Frame.fClose tag :: r) ≤ fuel := by
              rw [framesCost_append, framesCost_map_fNode]
              simp [framesCost, nodeCost] at h ⊢
              omega
            simp only [walk, hb, Bool.false_eq_true, if_false, ih _ _ hr]
            simp [refFrames, renderNodeM, hb, refFrames_nodes]

/-- The walker run on a single root with exactly the charged fuel computes
the reference serialization of that root. -/
theorem runRender_eq (m : Mode) (t : Node) :
    runRender m t = (renderNodeM m t 0).1 := by
  have h := walk_eq m (framesCost [Frame.fNode t]) [Frame.fNode t] 0 (Nat.le_refl _)
  simp [runRender, h, refFrames]

/-- C1: for every stateful component resolved during a render, the hooks run
in exactly the order `getInitialState`, `componentWillMount`, `render` (each
of the first two only when present), no update-phase hook is ever invoked,
and the state `render` receives is the one left by the synchronous
`componentWillMount` mutation.  The last two conjuncts instantiate this on
the components of the lifecycle tests. -/
theorem lifecycle_init_only (σ : Type) (c : StatefulDef σ) :
    (resolveStateful c).2 =
      (match c.getInitialState with
       | some _ => [Hook.getInitialState]
       | none => []) ++
      (match c.componentWillMount with
       | some _ => [Hook.componentWillMount]
       | none => []) ++ [Hook.render]
    ∧ ((resolveStateful c).2.all (fun h => !(updateHooks.contains h))) = true
    ∧ (resolveStateful c).1 = c.render (mountedState c)
    ∧ (resolveStateful setStateDemo).1 = Node.text (str "hello, world")
    ∧ (resolveStateful lifecycleDemo).2
        = [Hook.getInitialState, Hook.componentWillMount, Hook.render] := by
  refine ⟨?_, ?_, ?_, ?_, by decide⟩
  · cases hg : c.getInitialState <;> cases hw : c.componentWillMount <;>
      simp [resolveStateful, initialState, hg, hw]
  · cases hg : c.getInitialState <;> cases hw : c.componentWillMount <;>
      (simp [resolveStateful, initialState, hg, hw, updateHooks]; decide)
  · cases hw : c.componentWillMount <;>
      simp [resolveStateful, mountedState, hw]
  · simp [resolveStateful, setStateDemo, initialState]

/-- C3: both public operations fail synchronously with the invalid-root
error, before producing any stream, whenever the argument is not a valid
node. -/
theorem invalid_root_sync_error (a : JSArg) (h : ∀ t, a ≠ JSArg.element t) :
    renderToStringStream a = Except.error RenderError.invalidRoot
    ∧ renderToStaticMarkupStream a = Except.error RenderError.invalidRoot := by
  cases a with
  | element t => exact absurd rfl (h t)
  | strArg s => exact ⟨rfl, rfl⟩
  | numArg n => exact ⟨rfl, rfl⟩
  | boolArg b => exact ⟨rfl, rfl⟩
  | nullArg => exact ⟨rfl, rfl⟩

theorem invalid_root_sync_error_witness :
    renderToStringStream (JSArg.strArg (str "not a component"))
      = Except.error RenderError.invalidRoot
    ∧ renderToStaticMarkupStream (JSArg.strArg (str "not a component"))
      = Except.error RenderError.invalidRoot :=
  invalid_root_sync_error (JSArg.strArg (str "not a component"))
    (fun _ h => JSArg.noConfusion h)

/-- C9: for every non-null, non-undefined input, `isReadableStream` returns
`true` exactly when all nine of `isPaused`, `pause`, `pipe`, `read`,
`resume`, `setEncoding`, `unpipe`, `unshift`, `wrap` are functions; strings
and numbers always yield `false`, as does an object lacking any one of
them.  Detection is purely structural over this fixed method set. -/
theorem isReadableStream_structural (v : JSValue)
    (h1 : v ≠ JSValue.vNull) (h2 : v ≠ JSValue.vUndefined) :
    isReadableStream v
      = some (streamMethods.all (fun name => (isFunctionProp v name).getD false))
    ∧ (∀ s, isReadableStream (JSValue.vString s) = some false)
    ∧ (∀ n, isReadableStream (JSValue.vNumber n) = some false)
    ∧ isReadableStream readableDemo = some true
    ∧ isReadableStream almostReadableDemo = some false := by
  refine ⟨?_, fun s => rfl, fun n => rfl, by decide, by decide⟩
  cases v with
  | vNull => exact absurd rfl h1
  | vUndefined => exact absurd rfl h2
  | vObject props =>
      simp [isReadableStream, isFunctionProp, propAccess, streamMethods,
        Bool.and_assoc]
  | vBool b => rfl
  | vNumber n => rfl
  | vString s => rfl
  | vFunction t => rfl

theorem isReadableStream_structural_witness :
    isReadableStream readableDemo
      = some (streamMethods.all
          (fun name => (isFunctionProp readableDemo name).getD false))
    ∧ (∀ s, isReadableStream (JSValue.vString s) = some false)
    ∧ (∀ n, isReadableStream (JSValue.vNumber n) = some false)
    ∧ isReadableStream readableDemo = some true
    ∧ isReadableStream almostReadableDemo = some false :=
  isReadableStream_structural readableDemo
    (fun h => JSValue.noConfusion h) (fun h => JSValue.noConfusion h)

/-- C10: `isReadableStream` returns a boolean on every non-null,
non-undefined input, but the unguarded first property access makes it throw
(modelled as `none`) on `null` and on `undefined`. -/
theorem isReadableStream_total_on_nonnull (v : JSValue)
    (h1 : v ≠ JSValue.vNull) (h2 : v ≠ JSValue.vUndefined) :
    (∃ b, isReadableStream v = some b)
    ∧ isReadableStream JSValue.vNull = none
    ∧ isReadableStream JSValue.vUndefined = none := by
  refine ⟨?_, by decide, by decide⟩
  cases v with
  | vNull => exact absurd rfl h1
  | vUndefined => exact absurd rfl h2
  | vObject props => exact ⟨_, rfl⟩
  | vBool b => exact ⟨_, rfl⟩
  | vNumber n => exact ⟨_, rfl⟩
  | vString s => exact ⟨_, rfl⟩
  | vFunction t => exact ⟨_, rfl⟩

theorem isReadableStream_total_on_nonnull_witness :
    (∃ b, isReadableStream (JSValue.vString "x") = some b)
    ∧ isReadableStream JSValue.vNull = none
    ∧ isReadableStream JSValue.vUndefined = none :=
  isReadableStream_total_on_nonnull (JSValue.vString "x")
    (fun h => JSValue.noConfusion h) (fun h => JSValue.noConfusion h)

theorem escapedOk_cons_safe (c : Char) (l : Str) (h1 : c ≠ '&') (h2 : c ≠ '<')
    (h3 : c ≠ '>') (h4 : c ≠ '"') (h5 : c ≠ '\'') :
    escapedOk (c :: l) = escapedOk l := by
  simp [escapedOk, h1, h2, h3, h4, h5]

theorem escapedOk_escapeChar (c : Char) (l : Str) :
    escapedOk (escapeChar c ++ l) = escapedOk l := by
  by_cases h1 : c = '&'
  · subst h1
    show escapedOk ('&' :: 'a' :: 'm' :: 'p' :: ';' :: l) = escapedOk l
    rfl
  by_cases h2 : c = '<'
  · subst h2
    show escapedOk ('&' :: 'l' :: 't' :: ';' :: l) = escapedOk l
    rfl
  by_cases h3 : c = '>'
  · subst h3
    show escapedOk ('&' :: 'g' :: 't' :: ';' :: l) = escapedOk l
    rfl
  by_cases h4 : c = '"'
  · subst h4
    show escapedOk ('&' :: 'q' :: 'u' :: 'o' :: 't' :: ';' :: l) = escapedOk l
    rfl
  by_cases h5 : c = '\''
  · subst h5
    show escapedOk ('&' :: '#' :: 'x' :: '2' :: '7' :: ';' :: l) = escapedOk l
    rfl
  have he : escapeChar c = [c] := by simp [escapeChar, h1, h2, h3, h4, h5]
  rw [he]
  exact escapedOk_cons_safe c l h1 h2 h3 h4 h5

theorem escapedOk_escapeMarkup (s : Str) : escapedOk (escapeMarkup s) = true := by
  induction s with
  | nil => rfl
  | cons c r ih => simp [escapeMarkup, escapedOk_escapeChar, ih]

/-- C2: every content channel is escaped and only the raw-HTML channel is
forwarded verbatim.  The escaper leaves `&`, `<`, `>` and quotes only in
escaped form (`escapedOk`); text nodes become text chunks rendered through
the escaper; attribute values are rendered through the escaper; external
sources become text chunks, likewise escaped on rendering; the raw-HTML
children-override produces raw chunks, and raw chunks render verbatim. -/
theorem escaping_channels :
    (∀ s : Str, escapedOk (escapeMarkup s) = true)
    ∧ (∀ s : Str, staticChunks (Node.text s) = [Chunk.text s]
        ∧ chunkRender (Chunk.text s) = escapeMarkup s)
    ∧ (∀ a : Str × Str,
        attrText a = str " " ++ a.1 ++ str "=\x22" ++ escapeMarkup a.2 ++ str "\x22")
    ∧ (∀ cs : List Str, staticChunks (Node.source cs) = cs.map Chunk.text)
    ∧ (∀ (tag : Str) (attrs : List (Str × Str)) (cs : List Str),
        staticChunks (Node.hostRaw tag attrs cs)
          = Chunk.openTag tag attrs false :: (cs.map Chunk.raw ++ [Chunk.closeTag tag]))
    ∧ (∀ s : Str, chunkRender (Chunk.raw s) = s) := by
  refine ⟨escapedOk_escapeMarkup, ?_, fun a => rfl, ?_, ?_, fun s => rfl⟩
  · intro s
    exact ⟨by simp [staticChunks, runRender_eq, renderNodeM], rfl⟩
  · intro cs
    simp [staticChunks, runRender_eq, renderNodeM]
  · intro tag attrs cs
    simp [staticChunks, runRender_eq, renderNodeM, annotate]

theorem refFrames_nodes_nil (m : Mode) (ns : List Node) (k : Nat) :
    refFrames m (ns.map Frame.fNode) k = renderListM m ns k := by
  have h := refFrames_nodes m ns [] k
  simpa [refFrames] using h

/-- C5: when the walker's worklist holds an external source between sibling
frames, the source's chunks appear in the output contiguously, after
everything produced by the preceding siblings and before everything produced
by the following ones — never interleaved. -/
theorem external_source_contiguous (m : Mode) (k fuel : Nat)
    (pre post : List Node) (cs : List Str)
    (hfuel : framesCost (pre.map Frame.fNode
        ++ Frame.fNode (Node.source cs) :: post.map Frame.fNode) ≤ fuel) :
    walk m fuel
        (pre.map Frame.fNode ++ Frame.fNode (Node.source cs) :: post.map Frame.fNode) k
      = some ((renderListM m pre k).1 ++ cs.map Chunk.text
            ++ (renderListM m post (renderListM m pre k).2).1,
          (renderListM m post (renderListM m pre k).2).2) := by
  rw [walk_eq m fuel _ k hfuel, refFrames_nodes]
  simp [refFrames, renderNodeM, refFrames_nodes_nil]

theorem external_source_contiguous_witness :
    walk Mode.staticMode
        (framesCost ([Node.text (str "Hello, world!")].map Frame.fNode
          ++ Frame.fNode (Node.source [str "Goodbye, world!"])
            :: [Node.host (str "span") [] []].map Frame.fNode))
        ([Node.text (str "Hello, world!")].map Frame.fNode
          ++ Frame.fNode (Node.source [str "Goodbye, world!"])
            :: [Node.host (str "span") [] []].map Frame.fNode) 0
      = some ((renderListM Mode.staticMode [Node.text (str "Hello, world!")] 0).1
            ++ [str "Goodbye, world!"].map Chunk.text
            ++ (renderListM Mode.staticMode [Node.host (str "span") [] []]
                (renderListM Mode.staticMode [Node.text (str "Hello, world!")] 0).2).1,
          (renderListM Mode.staticMode [Node.host (str "span") [] []]
            (renderListM Mode.staticMode [Node.text (str "Hello, world!")] 0).2).2) :=
  external_source_contiguous Mode.staticMode 0 _
    [Node.text (str "Hello, world!")] [Node.host (str "span") [] []]
    [str "Goodbye, world!"] (Nat.le_refl _)

theorem chunksText_append (a b : List Chunk) :
    chunksText (a ++ b) = chunksText a ++ chunksText b := by
  induction a with
  | nil => rfl
  | cons c r ih => simp [chunksText, ih]

theorem renderLeafDiv (k : Nat) :
    renderNodeM Mode.staticMode leafDiv k
      = ([Chunk.openTag (str "div") [] false, Chunk.text (str "abcdefghij"),
          Chunk.closeTag (str "div")], k) := rfl

theorem leafDivText :
    chunksText [Chunk.openTag (str "div") [] false, Chunk.text (str "abcdefghij"),
      Chunk.closeTag (str "div")] = str "<div>abcdefghij</div>" := by decide

theorem wideContent (n : Nat) : ∀ k : Nat,
    chunksText (renderListM Mode.staticMode (List.replicate n leafDiv) k).1
      = repeatStr n (str "<div>abcdefghij</div>") := by
  induction n with
  | zero => intro k; rfl
  | succ n ih =>
      intro k
      simp only [List.replicate_succ, renderListM, renderLeafDiv, repeatStr]
      rw [chunksText_append, leafDivText, ih]

/-- C8: the walker, driven purely by its explicit worklist, completes the
traversal of a tree with `n` sibling leaf host elements under one parent for
every `n` — in particular `n = 100000` — within its charged number of
worklist steps, and produces the full output. -/
theorem wide_tree_traversal_completes :
    (∀ (m : Mode) (n : Nat),
        walk m (framesCost [Frame.fNode (wideTree n)]) [Frame.fNode (wideTree n)] 0
          = some (renderNodeM m (wideTree n) 0))
    ∧ (∀ n : Nat, staticStr (wideTree n)
        = str "<div>" ++ repeatStr n (str "<div>abcdefghij</div>") ++ str "</div>")
    ∧ walk Mode.staticMode (framesCost [Frame.fNode (wideTree 100000)])
        [Frame.fNode (wideTree 100000)] 0
        = some (renderNodeM Mode.staticMode (wideTree 100000) 0) := by
  have h1 : ∀ (m : Mode) (n : Nat),
      walk m (framesCost [Frame.fNode (wideTree n)]) [Frame.fNode (wideTree n)] 0
        = some (renderNodeM m (wideTree n) 0) := by
    intro m n
    rw [walk_eq m _ [Frame.fNode (wideTree n)] 0 (Nat.le_refl _)]
    simp [refFrames]
  refine ⟨h1, ?_, h1 Mode.staticMode 100000⟩
  intro n
  have hv : voidTag (str "div") = false := by decide
  have hnl : newlineEating (str "div") = false := by decide
  have hopen : chunkRender (Chunk.openTag (str "div") [] false) = str "<div>" := by
    decide
  have hclose : chunkRender (Chunk.closeTag (str "div")) = str "</div>" := by decide
  simp [staticStr, staticChunks, runRender_eq, wideTree, renderNodeM, annotate, hv,
    nlFix, hnl, chunksText, chunksText_append, hopen, hclose, wideContent]

theorem allEmpty_text_chunks (cs : List Str) (h : allEmptyChunks cs = true) :
    chunksText (cs.map Chunk.text) = [] := by
  induction cs with
  | nil => rfl
  | cons c r ih =>
      simp [allEmptyChunks] at h
      obtain ⟨h1, h2⟩ := h
      subst h1
      simp [chunksText, chunkRender, escapeMarkup, ih h2]

theorem allEmpty_firstChunkChar (cs : List Str) (h : allEmptyChunks cs = true) :
    firstChunkChar cs = none := by
  induction cs with
  | nil => rfl
  | cons c r ih =>
      simp [allEmptyChunks] at h
      obtain ⟨h1, h2⟩ := h
      subst h1
      simp [firstChunkChar, ih h2]

theorem emptySources_firstChar (children : List Node)
    (h : emptySourceChildren children = true) :
    firstCharList children = none := by
  induction children with
  | nil => rfl
  | cons n ns ih =>
      cases n <;> simp [emptySourceChildren] at h
      obtain ⟨h1, h2⟩ := h
      simp [firstCharList, firstCharNode, allEmpty_firstChunkChar _ h1, ih h2]

theorem emptySources_content (m : Mode) (children : List Node)
    (h : emptySourceChildren children = true) : ∀ k : Nat,
    (renderListM m children k).2 = k
    ∧ chunksText (renderListM m children k).1 = [] := by
  induction children with
  | nil => intro k; exact ⟨rfl, rfl⟩
  | cons n ns ih =>
      intro k
      cases n <;> simp [emptySourceChildren] at h
      obtain ⟨h1, h2⟩ := h
      have hr := ih h2 k
      simp [renderListM, renderNodeM, chunksText_append,
        allEmpty_text_chunks _ h1, hr.1, hr.2]

/-- C6: a void-eligible host element whose children are external sources
that end before producing any bytes is serialized self-closing, with no
closing tag and no content, exactly as if it had no children; a non-void
host element with only empty external sources still emits both its opening
and its closing tag with nothing in between. -/
theorem void_empty_source_selfclose
    (tag : Str) (attrs : List (Str × Str)) (children : List Node)
    (tag2 : Str) (attrs2 : List (Str × Str)) (children2 : List Node)
    (hvoid : voidTag tag = true) (hempty : emptySourceChildren children = true)
    (hvoid2 : voidTag tag2 = false) (hempty2 : emptySourceChildren children2 = true) :
    staticChunks (Node.host tag attrs children) = [Chunk.openTag tag attrs true]
    ∧ staticChunks (Node.host tag attrs children)
        = staticChunks (Node.host tag attrs [])
    ∧ staticStr (Node.host tag2 attrs2 children2)
        = chunkRender (Chunk.openTag tag2 attrs2 false)
          ++ chunkRender (Chunk.closeTag tag2) := by
  have h1 : staticChunks (Node.host tag attrs children)
      = [Chunk.openTag tag attrs true] := by
    simp [staticChunks, runRender_eq, renderNodeM, annotate, hvoid, hempty]
  refine ⟨h1, ?_, ?_⟩
  · rw [h1]
    simp [staticChunks, runRender_eq, renderNodeM, annotate, hvoid,
      emptySourceChildren]
  · have hf := emptySources_firstChar children2 hempty2
    have hc := emptySources_content Mode.staticMode children2 hempty2 0
    simp [staticStr, staticChunks, runRender_eq, renderNodeM, annotate, hvoid2,
      nlFix, hf, chunksText, chunksText_append, hc.2]

theorem void_empty_source_selfclose_witness :
    staticChunks (Node.host (str "img") [] [Node.source [[]], Node.source [[]]])
      = [Chunk.openTag (str "img") [] true]
    ∧ staticChunks (Node.host (str "img") [] [Node.source [[]], Node.source [[]]])
      = staticChunks (Node.host (str "img") [] [])
    ∧ staticStr (Node.host (str "div") [] [Node.source [[]]])
      = chunkRender (Chunk.openTag (str "div") [] false)
        ++ chunkRender (Chunk.closeTag (str "div")) :=
  void_empty_source_selfclose (str "img") [] [Node.source [[]], Node.source [[]]]
    (str "div") [] [Node.source [[]]]
    (by decide) (by decide) (by decide) (by decide)

theorem cleanAttrs_mem (attrs : List (Str × Str)) (h : cleanAttrs attrs = true)
    (a : Str × Str) (ha : a ∈ attrs) :
    a.1 ≠ ID_ATTRIBUTE_NAME ∧ a.1 ≠ CHECKSUM_ATTR_NAME := by
  induction attrs with
  | nil => cases ha
  | cons b r ih =>
      simp [cleanAttrs] at h
      rcases List.mem_cons.mp ha with hb | ha2
      · subst hb
        exact ⟨h.1.1, h.1.2⟩
      · exact ih h.2 ha2

theorem clean_chunks_aux : ∀ N : Nat,
    (∀ (t : Node) (k : Nat), nodeCost t ≤ N → cleanNode t = true →
      ∀ c ∈ (renderNodeM Mode.staticMode t k).1, ∀ a ∈ chunkAttrs c,
        a.1 ≠ ID_ATTRIBUTE_NAME ∧ a.1 ≠ CHECKSUM_ATTR_NAME)
    ∧ (∀ (ns : List Node) (k : Nat), listCost ns ≤ N → cleanList ns = true →
      ∀ c ∈ (renderListM Mode.staticMode ns k).1, ∀ a ∈ chunkAttrs c,
        a.1 ≠ ID_ATTRIBUTE_NAME ∧ a.1 ≠ CHECKSUM_ATTR_NAME) := by
  intro N
  induction N with
  | zero =>
      constructor
      · intro t k hcost
        have := nodeCost_pos t
        omega
      · intro ns k hcost hclean c hc
        cases ns with
        | nil => simp [renderListM] at hc
        | cons n r =>
            have := nodeCost_pos n
            simp [listCost] at hcost
            omega
  | succ N ih =>
      have hnode : ∀ (t : Node) (k : Nat), nodeCost t ≤ N + 1 → cleanNode t = true →
          ∀ c ∈ (renderNodeM Mode.staticMode t k).1, ∀ a ∈ chunkAttrs c,
            a.1 ≠ ID_ATTRIBUTE_NAME ∧ a.1 ≠ CHECKSUM_ATTR_NAME := by
        intro t k hcost hclean c hc a ha
        cases t with
        | text s =>
            simp [renderNodeM] at hc
            subst hc
            simp [chunkAttrs] at ha
        | source cs =>
            simp [renderNodeM] at hc
            obtain ⟨x, hx, rfl⟩ := hc
            simp [chunkAttrs] at ha
        | hostRaw tag attrs cs =>
            simp [renderNodeM, annotate] at hc
            simp [cleanNode] at hclean
            rcases hc with rfl | hc
            · exact cleanAttrs_mem attrs hclean a (by simpa [chunkAttrs] using ha)
            · rcases hc with ⟨x, hx, rfl⟩ | rfl
              · simp [chunkAttrs] at ha
              · simp [chunkAttrs] at ha
        | composite r =>
            simp [cleanNode] at hclean
            simp only [renderNodeM] at hc
            have hcr : nodeCost r ≤ N := by simp [nodeCost] at hcost; omega
            exact ih.1 r k hcr hclean c hc a ha
        | host tag attrs children =>
            simp [cleanNode] at hclean
            by_cases hb : (voidTag tag && emptySourceChildren children) = true
            · simp [renderNodeM, annotate, hb] at hc
              subst hc
              exact cleanAttrs_mem attrs hclean.1 a (by simpa [chunkAttrs] using ha)
            · simp [renderNodeM, annotate, hb] at hc
              rcases hc with rfl | hc
              · exact cleanAttrs_mem attrs hclean.1 a (by simpa [chunkAttrs] using ha)
              · rcases hc with hc | hc | rfl
                · have : c = Chunk.text (str "\n") := by
                    by_cases hf : (newlineEating tag
                        && (firstCharList children == some '\n')) = true
                    · simpa [nlFix, hf] using hc
                    · simp [nlFix, hf] at hc
                  subst this
                  simp [chunkAttrs] at ha
                · have hcc : listCost children ≤ N := by
                    simp [nodeCost] at hcost; omega
                  exact ih.2 children _ hcc hclean.2 c hc a ha
                · simp [chunkAttrs] at ha
      refine ⟨hnode, ?_⟩
      intro ns k hcost hclean c hc a ha
      cases ns with
      | nil => simp [renderListM] at hc
      | cons n r =>
          simp only [renderListM] at hc
          simp [cleanList] at hclean
          rcases List.mem_append.mp hc with hc | hc
          · have hn : nodeCost n ≤ N + 1 := by simp [listCost] at hcost; omega
            exact hnode n k hn hclean.1 c hc a ha
          · have hr : listCost r ≤ N := by
              have := nodeCost_pos n
              simp [listCost] at hcost
              omega
            exact ih.2 r _ hr hclean.2 c hc a ha

/-- C7: for every tree that does not itself use the reserved attribute
names, the static-mode output carries no identity attribute and no checksum
attribute on any element — including elements produced through nested
composites — and non-opening chunks (text segments, closing tags, raw
chunks) carry no attributes at all. -/
theorem static_no_identity_attrs (t : Node) (h : cleanNode t = true) :
    ∀ c ∈ staticChunks t, ∀ a ∈ chunkAttrs c,
      a.1 ≠ ID_ATTRIBUTE_NAME ∧ a.1 ≠ CHECKSUM_ATTR_NAME := by
  intro c hc a ha
  have hc2 : c ∈ (renderNodeM Mode.staticMode t 0).1 := by
    rwa [staticChunks, runRender_eq] at hc
  exact (clean_chunks_aux (nodeCost t)).1 t 0 (Nat.le_refl _) h c hc2 a ha

theorem static_no_identity_attrs_witness :
    (str "class", str "x").1 ≠ ID_ATTRIBUTE_NAME
    ∧ (str "class", str "x").1 ≠ CHECKSUM_ATTR_NAME :=
  static_no_identity_attrs nestedDemo (by decide)
    (Chunk.openTag (str "span") [(str "class", str "x")] false) (by decide)
    (str "class", str "x") (by decide)

theorem nlCount_append (a b : Str) : nlCount (a ++ b) = nlCount a + nlCount b := by
  simp [nlCount, List.count_append]

theorem escapeChar_nl (c : Char) : nlCount (escapeChar c) = nlCount [c] := by
  by_cases h1 : c = '&'
  · subst h1; decide
  by_cases h2 : c = '<'
  · subst h2; decide
  by_cases h3 : c = '>'
  · subst h3; decide
  by_cases h4 : c = '"'
  · subst h4; decide
  by_cases h5 : c = '\''
  · subst h5; decide
  have he : escapeChar c = [c] := by simp [escapeChar, h1, h2, h3, h4, h5]
  rw [he]

theorem escapeMarkup_nl (s : Str) : nlCount (escapeMarkup s) = nlCount s := by
  induction s with
  | nil => rfl
  | cons c r ih =>
      show nlCount (escapeChar c ++ escapeMarkup r) = nlCount (c :: r)
      rw [nlCount_append, escapeChar_nl, ih]
      simp [nlCount, List.count_cons]
      omega

theorem escapeMarkup_head_nl (s : Str) (h : s.head? = some '\n') :
    (escapeMarkup s).head? = some '\n' := by
  cases s with
  | nil => cases h
  | cons c r =>
      have : c = '\n' := by simpa using h
      subst this
      show (escapeChar '\n' ++ escapeMarkup r).head? = some '\n'
      rfl

theorem sourceText_nl (cs : List Str) :
    nlCount (chunksText (cs.map Chunk.text)) = chunkListNL cs := by
  induction cs with
  | nil => rfl
  | cons c r ih =>
      show nlCount (escapeMarkup c ++ chunksText (r.map Chunk.text))
        = nlCount c + chunkListNL r
      rw [nlCount_append, escapeMarkup_nl, ih]

theorem sourceText_empty (cs : List Str) (h : firstChunkChar cs = none) :
    chunksText (cs.map Chunk.text) = [] := by
  induction cs with
  | nil => rfl
  | cons c r ih =>
      cases c with
      | nil =>
          show escapeMarkup [] ++ chunksText (r.map Chunk.text) = []
          simpa [escapeMarkup] using ih (by simpa [firstChunkChar] using h)
      | cons x xs => simp [firstChunkChar] at h

theorem sourceText_head (cs : List Str) (h : firstChunkChar cs = some '\n') :
    (chunksText (cs.map Chunk.text)).head? = some '\n' := by
  induction cs with
  | nil => cases h
  | cons c r ih =>
      cases c with
      | nil =>
          show (escapeMarkup [] ++ chunksText (r.map Chunk.text)).head? = some '\n'
          simpa [escapeMarkup] using ih (by simpa [firstChunkChar] using h)
      | cons x xs =>
          have hx : x = '\n' := by simpa [firstChunkChar] using h
          subst hx
          show (escapeMarkup ('\n' :: xs) ++ chunksText (r.map Chunk.text)).head?
            = some '\n'
          rfl

theorem leafContent_nl (children : List Node) (hleaf : leafChildren children = true) :
    ∀ k : Nat, nlCount (chunksText (renderListM Mode.staticMode children k).1)
      = contentNewlines children := by
  induction children with
  | nil => intro k; rfl
  | cons n ns ih =>
      intro k
      cases n <;> simp [leafChildren, leafNode] at hleaf
      · show nlCount (chunksText ([Chunk.text _] ++ _))
          = contentNewlines (Node.text _ :: ns)
        rw [chunksText_append]
        show nlCount (escapeMarkup _ ++ [] ++ _) = _
        simp only [List.append_nil]
        rw [nlCount_append, escapeMarkup_nl, ih hleaf]
        rfl
      · show nlCount (chunksText (List.map Chunk.text _ ++ _))
          = contentNewlines (Node.source _ :: ns)
        rw [chunksText_append, nlCount_append, sourceText_nl, ih hleaf]
        rfl

theorem leafContent_head (children : List Node)
    (hleaf : leafChildren children = true)
    (hfc : firstCharList children = some '\n') : ∀ k : Nat,
    (chunksText (renderListM Mode.staticMode children k).1).head? = some '\n' := by
  induction children with
  | nil => cases hfc
  | cons n ns ih =>
      intro k
      cases n <;> simp [leafChildren, leafNode] at hleaf
      · rename_i s
        show (chunksText ([Chunk.text s] ++ _)).head? = some '\n'
        rw [chunksText_append]
        show (escapeMarkup s ++ [] ++ _).head? = some '\n'
        simp only [List.append_nil]
        cases s with
        | nil =>
            have hfc2 : firstCharList ns = some '\n' := by
              simpa [firstCharList, firstCharNode] using hfc
            simpa [escapeMarkup] using ih hleaf hfc2 k
        | cons x xs =>
            have hx : x = '\n' := by
              simpa [firstCharList, firstCharNode] using hfc
            subst hx
            rw [List.head?_append]
            rw [escapeMarkup_head_nl ('\n' :: xs) rfl]
            rfl
      · rename_i cs
        show (chunksText (List.map Chunk.text cs ++ _)).head? = some '\n'
        rw [chunksText_append]
        cases hcc : firstChunkChar cs with
        | none =>
            have hfc2 : firstCharList ns = some '\n' := by
              simpa [firstCharList, firstCharNode, hcc] using hfc
            simpa [sourceText_empty cs hcc] using ih hleaf hfc2 k
        | some x =>
            have hx : x = '\n' := by
              simpa [firstCharList, firstCharNode, hcc] using hfc
            subst hx
            rw [List.head?_append, sourceText_head cs hcc]
            rfl

theorem nlFreeAttrs_text (attrs : List (Str × Str)) (h : nlFreeAttrs attrs = true) :
    nlCount (attrsText attrs) = 0 := by
  induction attrs with
  | nil => rfl
  | cons a r ih =>
      simp [nlFreeAttrs] at h
      show nlCount (attrText a ++ attrsText r) = 0
      rw [nlCount_append, ih h.2]
      show nlCount (str " " ++ a.1 ++ str "=\x22" ++ escapeMarkup a.2 ++ str "\x22") + 0 = 0
      rw [nlCount_append, nlCount_append, nlCount_append, nlCount_append,
        escapeMarkup_nl]
      simp [h.1.1, h.1.2]
      constructor <;> decide

theorem nlFreeOpen_chunks (tag : Str) (attrs : List (Str × Str)) (sc : Bool)
    (h : nlFreeOpen tag attrs = true) :
    nlCount (chunkRender (Chunk.openTag tag attrs sc)) = 0
    ∧ nlCount (chunkRender (Chunk.closeTag tag)) = 0 := by
  simp [nlFreeOpen] at h
  constructor
  · show nlCount (str "<" ++ tag ++ attrsText attrs
      ++ (if sc then str "/>" else str ">")) = 0
    rw [nlCount_append, nlCount_append, nlCount_append,
      nlFreeAttrs_text attrs h.2]
    simp [h.1]
    refine ⟨by decide, ?_⟩
    cases sc <;> decide
  · show nlCount (str "</" ++ tag ++ str ">") = 0
    rw [nlCount_append, nlCount_append]
    simp [h.1]
    constructor <;> decide

/-- C4: for a host element in the newline-eating tag set whose first
text/external-source content begins with a newline, the serializer emits one
additional leading newline — the output's content region begins with two
newlines and its newline count is the content's newline count plus one; for
a host element with any other tag, the output preserves the content's
newline count exactly. -/
theorem newline_eating_fixup (tag : Str) (attrs : List (Str × Str))
    (children : List Node)
    (hleaf : leafChildren children = true)
    (hfree : nlFreeOpen tag attrs = true)
    (hvoid : voidTag tag = false) :
    (newlineEating tag = true → firstCharList children = some '\n' →
      staticStr (Node.host tag attrs children)
        = chunkRender (Chunk.openTag tag attrs false) ++ (str "\n"
          ++ (contentStr children ++ chunkRender (Chunk.closeTag tag)))
      ∧ (contentStr children).head? = some '\n'
      ∧ nlCount (staticStr (Node.host tag attrs children))
          = contentNewlines children + 1)
    ∧ (newlineEating tag = false →
      nlCount (staticStr (Node.host tag attrs children))
        = contentNewlines children) := by
  have hchunks : staticChunks (Node.host tag attrs children)
      = Chunk.openTag tag attrs false :: (nlFix tag children
        ++ ((renderListM Mode.staticMode children 0).1 ++ [Chunk.closeTag tag])) := by
    simp [staticChunks, runRender_eq, renderNodeM, annotate, hvoid]
  have hopen := (nlFreeOpen_chunks tag attrs false hfree).1
  have hclose := (nlFreeOpen_chunks tag attrs false hfree).2
  constructor
  · intro hnl hfc
    have hfix : nlFix tag children = [Chunk.text (str "\n")] := by
      simp [nlFix, hnl, hfc]
    have hstr : staticStr (Node.host tag attrs children)
        = chunkRender (Chunk.openTag tag attrs false) ++ (str "\n"
          ++ (contentStr children ++ chunkRender (Chunk.closeTag tag))) := by
      rw [staticStr, hchunks, hfix]
      show chunkRender (Chunk.openTag tag attrs false)
          ++ chunksText ([Chunk.text (str "\n")]
            ++ ((renderListM Mode.staticMode children 0).1 ++ [Chunk.closeTag tag])) = _
      rw [chunksText_append, chunksText_append]
      show _ ++ ((escapeMarkup (str "\n") ++ [])
        ++ (contentStr children ++ (chunkRender (Chunk.closeTag tag) ++ []))) = _
      simp only [List.append_nil]
      rw [show escapeMarkup (str "\n") = str "\n" from rfl]
    refine ⟨hstr, leafContent_head children hleaf hfc 0, ?_⟩
    have hcontent : nlCount (contentStr children) = contentNewlines children :=
      leafContent_nl children hleaf 0
    rw [hstr, nlCount_append, nlCount_append, nlCount_append, hopen, hclose,
      hcontent]
    have h1 : nlCount (str "\n") = 1 := by decide
    omega
  · intro hnl
    have hfix : nlFix tag children = [] := by simp [nlFix, hnl]
    rw [staticStr, hchunks, hfix]
    show nlCount (chunkRender (Chunk.openTag tag attrs false)
      ++ chunksText ([] ++ ((renderListM Mode.staticMode children 0).1
        ++ [Chunk.closeTag tag]))) = _
    rw [List.nil_append, chunksText_append, nlCount_append, nlCount_append, hopen,
      leafContent_nl children hleaf 0]
    show _ + (_ + nlCount (chunkRender (Chunk.closeTag tag) ++ [])) = _
    simp only [List.append_nil]
    rw [hclose]
    omega

theorem newline_eating_fixup_witness :
    nlCount (staticStr (Node.host (str "pre") [] [Node.text (str "\nContents")]))
      = nlCount (str "\nContents") + 1
    ∧ (contentStr [Node.text (str "\nContents")]).head? = some '\n'
    ∧ nlCount (staticStr (Node.host (str "div") [] [Node.text (str "\nContents")]))
      = nlCount (str "\nContents") := by
  have h1 := (newline_eating_fixup (str "pre") [] [Node.text (str "\nContents")]
    (by decide) (by decide) (by decide)).1 (by decide) (by decide)
  have h2 := (newline_eating_fixup (str "div") [] [Node.text (str "\nContents")]
    (by decide) (by decide) (by decide)).2 (by decide)
  refine ⟨?_, h1.2.1, ?_⟩
  · rw [h1.2.2]
    decide
  · rw [h2]
    decide

